import Mathlib

/-!
Verification of the procedural world generator (`scripts/map_gen.py`,
`generate_hytopia_map`).  The generator is embedded shallowly:
* integer lattice coordinates are `ℤ`; a `Cell` is a pair `(x, z)`;
* Python `range` loops become `intRange`; the nested `for x … for z …`
  iteration over the bounding square becomes `squareCells` (same order:
  ascending `x`, inner ascending `z`);
* the float comparison `math.sqrt(x**2 + z**2) <= d` is embedded exactly as
  `0 ≤ d ∧ x² + z² ≤ d²` (the comparison of a correctly rounded square root
  of an integer against an integer is exact for all magnitudes involved);
* the Perlin-noise fields are external library calls (`noise.pnoise2`) and
  are modelled as unconstrained functions `Cell → ℚ`; float arithmetic on
  noise values is embedded as exact rational arithmetic;
* Python dictionaries keyed by cells become functions `Cell → Option ℤ`,
  mutation becomes pointwise functional update;
* the ambient random stream (`random.random`, `random.uniform`, …) is
  modelled as an explicit collection of oracles passed to the generator.
-/

abbrev Cell := ℤ × ℤ

/-- The integers `a, a+1, …, b` (empty when `b < a`): Python `range(a, b+1)`. -/
def intRange (a b : ℤ) : List ℤ :=
  (List.range (b + 1 - a).toNat).map (fun (i : ℕ) => a + (i : ℤ))

/-- Iteration order of `for x in range(-r, r+1): for z in range(-r, r+1):`. -/
def squareCells (r : ℤ) : List Cell :=
  (intRange (-r) r).flatMap (fun x => (intRange (-r) r).map (fun z => (x, z)))

/-- `math.sqrt(x² + z²) ≤ d`, expressed exactly over `ℤ`. -/
def distLE (x z d : ℤ) : Bool := decide (0 ≤ d) && decide (x ^ 2 + z ^ 2 ≤ d ^ 2)

/-- `math.sqrt(x² + z²) > d`, the exact complement of `distLE`. -/
def distGT (x z d : ℤ) : Bool := !(distLE x z d)

/-- `math.sqrt(x² + z²) < d`, expressed exactly over `ℤ`. -/
def distLT (x z d : ℤ) : Bool := decide (0 < d) && decide (x ^ 2 + z ^ 2 < d ^ 2)

/-- The valid cells: the disk of radius `r`, in iteration order. -/
def validCells (r : ℤ) : List Cell :=
  (squareCells r).filter (fun c => distLE c.1 c.2 r)

/-- Python `min(l)` for nonempty `l`, with a default for the empty list. -/
def pyMin [LinearOrder α] (dflt : α) : List α → α
  | [] => dflt
  | a :: as => as.foldl min a

/-- Python `max(l)` for nonempty `l`, with a default for the empty list. -/
def pyMax [LinearOrder α] (dflt : α) : List α → α
  | [] => dflt
  | a :: as => as.foldl max a

/-! ## Height synthesis and normalization (`generate_hytopia_map`, lines 52-99) -/

/-- A height map: the Python dict `{(x, z): h}` as a partial function. -/
abbrev HeightMap := Cell → Option ℤ

/-- `min(raw_noise_values) if raw_noise_values else -1` (line 87); the raw
noise values are the combined-noise samples over the valid cells, in
iteration order. -/
def minNoise (r : ℤ) (f : Cell → ℚ) : ℚ := pyMin (-1) ((validCells r).map f)

/-- `max(raw_noise_values) if raw_noise_values else 1` (line 88). -/
def maxNoise (r : ℤ) (f : Cell → ℚ) : ℚ := pyMax 1 ((validCells r).map f)

/-- `noise_range = max_noise - min_noise; if noise_range == 0: noise_range = 1`
(lines 89-90). -/
def noiseRange (r : ℤ) (f : Cell → ℚ) : ℚ :=
  let d := maxNoise r f - minNoise r f
  if d = 0 then 1 else d

/-- Python `int()` on a rational: truncation toward zero. -/
def pyint (q : ℚ) : ℤ := if q < 0 then -⌊-q⌋ else ⌊q⌋

/-- `height = int((combined - min_noise) / noise_range * (max_height - min_height))
+ min_height` (lines 96-98), for one cell. -/
def normHeight (r : ℤ) (f : Cell → ℚ) (minH maxH : ℤ) (c : Cell) : ℤ :=
  pyint ((f c - minNoise r f) / noiseRange r f * ((maxH : ℚ) - (minH : ℚ))) + minH

/-- `normalized_height_map` (lines 93-99): defined exactly on the valid cells. -/
def normalizedHeightMap (r : ℤ) (f : Cell → ℚ) (minH maxH : ℤ) : HeightMap :=
  fun c => if distLE c.1 c.2 r then some (normHeight r f minH maxH c) else none

/-! ## Height smoother (lines 106-124) -/

/-- The 4-neighbour values present in the map, in the code's order
`[(-1, 0), (1, 0), (0, -1), (0, 1)]` (lines 111-115). -/
def neighborVals (m : HeightMap) (c : Cell) : List ℤ :=
  ([(-1, 0), (1, 0), (0, -1), (0, 1)] : List (ℤ × ℤ)).filterMap
    (fun d => m (c.1 + d.1, c.2 + d.2))

/-- Lines 117-123: `new_height = max(min_neighbor - 1, min(max_neighbor + 1,
current))`, then `new_height = max(min_height, new_height)`, where the
neighbour list is `n :: ns`. -/
def newHeightAt (minH current : ℤ) (n : ℤ) (ns : List ℤ) : ℤ :=
  max minH (max (ns.foldl min n - 1) (min (ns.foldl max n + 1) current))

/-- The body of the smoothing loop for one cell (lines 110-124): reads the
*current* map (which already holds this pass's updates for earlier cells)
and writes the clamped height back into it. -/
def relaxCell (minH : ℤ) (m : HeightMap) (c : Cell) : HeightMap :=
  match m c with
  | none => m
  | some current =>
    match neighborVals m c with
    | [] => m
    | n :: ns => fun p => if p = c then some (newHeightAt minH current n ns) else m p

/-- One in-place relaxation pass: the nested `for x … for z …` loop mutating
`smoothed_height_map` as it goes (lines 108-124). -/
def relaxPass (minH r : ℤ) (m : HeightMap) : HeightMap :=
  (squareCells r).foldl (relaxCell minH) m

/-- `for _ in range(2)` (line 107): the two in-place relaxation passes. -/
def smoothHeightMap (minH r : ℤ) (m : HeightMap) : HeightMap :=
  relaxPass minH r (relaxPass minH r m)

/-- Modelled from the spec (§4.3, the sentence under test in C1): one
relaxation pass in which every cell reads the *previous* pass's values only —
a frozen snapshot of the map, no in-pass propagation. -/
def snapshotPass (minH : ℤ) (m : HeightMap) : HeightMap :=
  fun c =>
    match m c with
    | none => none
    | some current =>
      match neighborVals m c with
      | [] => some current
      | n :: ns => some (newHeightAt minH current n ns)

/-- Two snapshot-based relaxation passes: the spec's reference smoother. -/
def snapshotSmooth (minH : ℤ) (m : HeightMap) : HeightMap :=
  snapshotPass minH (snapshotPass minH m)

/-- Radius-1 disk with a height-9 spike at the centre and a height-0 ring:
the input exhibiting in-pass propagation in the smoother. -/
def spikeMap : HeightMap := fun c =>
  if c = ((0 : ℤ), (0 : ℤ)) then some 9
  else if c = (-1, 0) ∨ c = (1, 0) ∨ c = (0, -1) ∨ c = (0, 1) then some 0
  else none

/-! ## Bounds preservation of the smoother -/

/-- Every height present in the map lies in `[lo, hi]`. -/
def heightsInBounds (lo hi : ℤ) (m : HeightMap) : Prop :=
  ∀ c v, m c = some v → lo ≤ v ∧ v ≤ hi

/-! ## Voxelizer: per-column block placement (lines 148-168) -/

/-- `top_block_id = 2 if patch_value > -0.1 else 1` (line 159). -/
def topBlockId (patchValue : ℚ) : ℤ := if patchValue > -1/10 then 2 else 1

/-- The water infill of one column (lines 163-165): `if terrain_height <
water_threshold`, water (id 4) at `y = terrain_height+1 .. water_threshold`. -/
def waterBlocks (waterThreshold terrainHeight : ℤ) : List (ℤ × ℤ) :=
  if terrainHeight < waterThreshold then
    (intRange (terrainHeight + 1) waterThreshold).map (fun y => (y, 4))
  else []

/-- All block writes of one column (lines 151-165), as `(y, block-id)` pairs
in write order: voidsoil (id 1) at `y = 0 .. h-1`, the patch-selected top
layer at `y = h`, then the water infill. -/
def columnBlocks (waterThreshold : ℤ) (patchValue : ℚ) (terrainHeight : ℤ) :
    List (ℤ × ℤ) :=
  (intRange 0 (terrainHeight - 1)).map (fun y => (y, 1))
    ++ [(terrainHeight, topBlockId patchValue)]
    ++ waterBlocks waterThreshold terrainHeight

/-! ## Dome: boundary wall (lines 246-257) -/

/-- `base_wall_height = 4` (line 247). -/
def baseWallHeight : ℤ := 4

/-- `skip_rows = 12` (line 248). -/
def skipRows : ℤ := 12

/-- The boundary-wall pass (lines 251-257): for every cell of the bounding
square with `distance > radius - 2`, write the wall band at
`y = terrain_height+1 .. terrain_height+wall_height`, where the terrain
height is `smoothed_height_map.get((x, z), 0)`.  Writes are `(x, y, z)`
triples in iteration order. -/
def wallWrites (r wallH : ℤ) (m : HeightMap) : List (ℤ × ℤ × ℤ) :=
  (squareCells r).flatMap (fun c =>
    if distGT c.1 c.2 (r - 2) then
      (intRange ((m c).getD 0 + 1) ((m c).getD 0 + wallH)).map (fun y => (c.1, y, c.2))
    else [])

/-- A radius-3 disk of constant terrain height 1, for the wall counterexample. -/
def wallDemoMap : HeightMap := fun c => if distLE c.1 c.2 3 then some 1 else none

/-! ## Dome: ceiling panels (lines 259-279) and apex platform (lines 281-286) -/

/-- The per-voxel skip threshold `max_height + base_wall_height + skip_rows`
(line 278). -/
def skipThreshold (maxH : ℤ) : ℤ := maxH + baseWallHeight + skipRows

/-- The vertical band written for one panel column (lines 277-279):
`for y in range(dome_y - 2, dome_y + 1)`, keeping only `y ≥` the threshold. -/
def panelColumnWrites (threshold domeY : ℤ) : List ℤ :=
  (intRange (domeY - 2) domeY).filter (fun y => decide (threshold ≤ y))

/-- One ceiling panel (lines 270-279): `domeElev` is the projected dome
elevation `int(dome_height * sqrt(1 - (distance/radius)**2)) + max_height`
at a cell, modelled abstractly (the square root is an external float
computation; claim C7 treats its radicand separately).  A voxel is written
when the cell is inside both the world disk and the panel's local disk. -/
def panelWrites (r maxH : ℤ) (domeElev : Cell → ℤ) (center : Cell) (pr : ℤ) :
    List (ℤ × ℤ × ℤ) :=
  (squareCells pr).flatMap (fun d =>
    if distLE (center.1 + d.1) (center.2 + d.2) r && distLE d.1 d.2 pr then
      (panelColumnWrites (skipThreshold maxH) (domeElev (center.1 + d.1, center.2 + d.2))).map
        (fun y => (center.1 + d.1, y, center.2 + d.2))
    else [])

/-! ## Dome projection radicands (lines 262-266 and 274-276) -/

/-- The radicand of the panel-centre dome projection (line 266):
`1 - (dist / radius)**2` for the sampled distance. -/
def panelRadicand (dist r : ℚ) : ℚ := 1 - (dist / r) ^ 2

/-- The radicand of the per-voxel dome projection (line 276):
`1 - (distance / radius)**2` with `distance = sqrt(x² + z²)`, i.e. exactly
`1 - (x² + z²) / r²`. -/
def voxelRadicand (x z r : ℤ) : ℚ := 1 - ((x ^ 2 + z ^ 2 : ℤ) : ℚ) / ((r ^ 2 : ℤ) : ℚ)

/-! ## Entity scatterer (lines 175-244) -/

/-- An emitted entity placement: the centred float coordinates used as the
entity key (lines 213-217, 228) and the drawn uniform scale.  The model URI,
opacity, animation list and rotation quaternion carry no information about
the claims under test and are omitted. -/
structure Placement where
  px : ℚ
  py : ℚ
  pz : ℚ
  modelScale : ℚ

/-- The body of the scatter loop for one cell (lines 192-242): the cell
emits an entity iff it is land (`terrain_height > water_threshold`), strictly
interior (`distance < radius - 5`) and its Bernoulli trial succeeds; the
placement is `(x + 0.5, terrain_height + 1 + scale/2, z + 0.5)`.  The
sequential draws from the ambient random stream are modelled as per-cell
oracles: `rFlip c` is the outcome of `random.random() < placement_chance`
at `c`, and `rScale c` the drawn uniform scale. -/
def scatterCell (r wt : ℤ) (rFlip : Cell → Bool) (rScale : Cell → ℚ)
    (c : Cell) : Option ℤ → Option Placement
  | none => none
  | some th =>
    if th > wt ∧ distLT c.1 c.2 (r - 5) = true ∧ rFlip c = true then
      some { px := (c.1 : ℚ) + 1 / 2
             py := ((th + 1 : ℤ) : ℚ) + rScale c / 2
             pz := (c.2 : ℚ) + 1 / 2
             modelScale := rScale c }
    else none

/-- The scatterer (lines 192-242) over the cells of the smoothed height map. -/
def scatterEntities (r wt : ℤ) (m : HeightMap) (rFlip : Cell → Bool)
    (rScale : Cell → ℚ) : List Placement :=
  (validCells r).filterMap (fun c => scatterCell r wt rFlip rScale c (m c))

/-- The single-cell height map (terrain height 3 at the origin) used to
instantiate the scatterer. -/
def scatterDemoMap : HeightMap := fun c =>
  if c = ((0 : ℤ), (0 : ℤ)) then some 3 else none

/-- The placement emitted at the origin for terrain height 3 and scale 2. -/
def demoPlacement : Placement :=
  { px := (((0 : ℤ), (0 : ℤ)) : Cell).1 + 1 / 2
    py := (((3 : ℤ) + 1 : ℤ) : ℚ) + (2 : ℚ) / 2
    pz := (((0 : ℤ), (0 : ℤ)) : Cell).2 + 1 / 2
    modelScale := (2 : ℚ) }

/-! ## Full generator assembly (lines 52-299) -/

/-- The apex platform (lines 281-286): a disk of radius 5 of wall blocks at
the single height `dome_height + max_height`. -/
def apexPlatform (dh maxH : ℤ) : List (ℤ × ℤ × ℤ) :=
  ((squareCells 5).filter (fun c => distLE c.1 c.2 5)).map
    (fun c => (c.1, dh + maxH, c.2))

/-- The outcomes of all draws the generator takes from the ambient random
stream: the per-cell Bernoulli trials and uniform scales of the entity
scatterer, and the drawn list of ceiling panels (centre and footprint
radius, one entry per panel of the drawn panel count). -/
structure RandomOracles where
  rFlip : Cell → Bool
  rScale : Cell → ℚ
  panels : List (Cell × ℤ)

/-- The produced map artifact: the smoothed height field and the block and
entity writes in emission order (block writes are `(x, y, z, id)`). -/
structure MapOut where
  heights : HeightMap
  blocks : List (ℤ × ℤ × ℤ × ℤ)
  entities : List Placement

/-- The generator pipeline (`generate_hytopia_map`): synthesize and
normalize the height field from the combined noise `f`, smooth it in place,
then emit terrain/water columns (with the patch field choosing top blocks),
the boundary wall, the random ceiling panels, the apex platform, and the
scattered entities.  `domeElev` abstracts the float dome projection
`int(dome_height * sqrt(1 - (d/r)²)) + max_height`, and `rand` the ambient
random stream. -/
def generate (r minH maxH wt dh : ℤ) (f patch : Cell → ℚ)
    (domeElev : Cell → ℤ) (rand : RandomOracles) : MapOut :=
  let sm := smoothHeightMap minH r (normalizedHeightMap r f minH maxH)
  { heights := sm
    blocks :=
      ((validCells r).flatMap (fun c =>
          (columnBlocks wt (patch c) ((sm c).getD 0)).map
            (fun b => (c.1, b.1, c.2, b.2))))
        ++ (wallWrites r baseWallHeight sm).map (fun w => (w.1, w.2.1, w.2.2, 3))
        ++ (rand.panels.flatMap (fun pn =>
            (panelWrites r maxH domeElev pn.1 pn.2).map
              (fun w => (w.1, w.2.1, w.2.2, 3))))
        ++ (apexPlatform dh maxH).map (fun w => (w.1, w.2.1, w.2.2, 3))
    entities := scatterEntities r wt sm rand.rFlip rand.rScale }

/-! ## Theorems -/

theorem mem_intRange {a b y : ℤ} : y ∈ intRange a b ↔ a ≤ y ∧ y ≤ b := by
  simp only [intRange, List.mem_map, List.mem_range]
  constructor
  · rintro ⟨i, hi, rfl⟩
    omega
  · intro h
    exact ⟨(y - a).toNat, by omega, by omega⟩

theorem mem_squareCells {r : ℤ} {c : Cell} :
    c ∈ squareCells r ↔ (-r ≤ c.1 ∧ c.1 ≤ r) ∧ (-r ≤ c.2 ∧ c.2 ≤ r) := by
  simp only [squareCells, List.mem_flatMap, List.mem_map]
  constructor
  · rintro ⟨x, hx, z, hz, rfl⟩
    exact ⟨mem_intRange.mp hx, mem_intRange.mp hz⟩
  · rintro ⟨h1, h2⟩
    exact ⟨c.1, mem_intRange.mpr h1, c.2, mem_intRange.mpr h2, rfl⟩

theorem mem_validCells {r : ℤ} {c : Cell} :
    c ∈ validCells r ↔ distLE c.1 c.2 r = true := by
  simp only [validCells, List.mem_filter, and_iff_right_iff_imp]
  intro h
  have h0 : 0 ≤ r ∧ c.1 ^ 2 + c.2 ^ 2 ≤ r ^ 2 := by
    simpa [distLE] using h
  apply mem_squareCells.mpr
  constructor <;> constructor <;> nlinarith [h0.1, h0.2, sq_nonneg c.1, sq_nonneg c.2]

theorem foldl_min_mem [LinearOrder α] (as : List α) :
    ∀ (a : α), as.foldl min a ∈ a :: as := by
  induction as with
  | nil => intro a; simp [List.foldl]
  | cons b bs ih =>
    intro a
    have h := ih (min a b)
    rcases List.mem_cons.mp h with h | h
    · rcases min_choice a b with hc | hc <;> rw [List.foldl_cons, h, hc] <;> simp
    · simp only [List.foldl_cons, List.mem_cons]
      exact Or.inr (Or.inr h)

theorem foldl_min_le [LinearOrder α] (as : List α) :
    ∀ (a : α), ∀ x ∈ a :: as, as.foldl min a ≤ x := by
  induction as with
  | nil =>
    intro a x hx
    simp at hx
    simp [hx]
  | cons b bs ih =>
    intro a x hx
    have hab : List.foldl min (min a b) bs ≤ min a b :=
      ih (min a b) (min a b) (List.mem_cons_self _ _)
    rw [List.foldl_cons]
    rcases List.mem_cons.mp hx with h1 | hx
    · rw [h1]
      exact le_trans hab (min_le_left _ _)
    rcases List.mem_cons.mp hx with h1 | hx
    · rw [h1]
      exact le_trans hab (min_le_right _ _)
    · exact ih (min a b) x (List.mem_cons_of_mem _ hx)

theorem foldl_max_mem [LinearOrder α] (as : List α) :
    ∀ (a : α), as.foldl max a ∈ a :: as := by
  induction as with
  | nil => intro a; simp [List.foldl]
  | cons b bs ih =>
    intro a
    have h := ih (max a b)
    rcases List.mem_cons.mp h with h | h
    · rcases max_choice a b with hc | hc <;> rw [List.foldl_cons, h, hc] <;> simp
    · simp only [List.foldl_cons, List.mem_cons]
      exact Or.inr (Or.inr h)

theorem le_foldl_max [LinearOrder α] (as : List α) :
    ∀ (a : α), ∀ x ∈ a :: as, x ≤ as.foldl max a := by
  induction as with
  | nil =>
    intro a x hx
    simp at hx
    simp [hx]
  | cons b bs ih =>
    intro a x hx
    have hab : max a b ≤ List.foldl max (max a b) bs :=
      ih (max a b) (max a b) (List.mem_cons_self _ _)
    rw [List.foldl_cons]
    rcases List.mem_cons.mp hx with h1 | hx
    · rw [h1]
      exact le_trans (le_max_left a b) hab
    rcases List.mem_cons.mp hx with h1 | hx
    · rw [h1]
      exact le_trans (le_max_right a b) hab
    · exact ih (max a b) x (List.mem_cons_of_mem _ hx)

theorem pyMin_le [LinearOrder α] (dflt : α) (l : List α) (x : α) (hx : x ∈ l) :
    pyMin dflt l ≤ x := by
  cases l with
  | nil => cases hx
  | cons a as => exact foldl_min_le as a x hx

theorem le_pyMax [LinearOrder α] (dflt : α) (l : List α) (x : α) (hx : x ∈ l) :
    x ≤ pyMax dflt l := by
  cases l with
  | nil => cases hx
  | cons a as => exact le_foldl_max as a x hx

theorem pyMin_mem [LinearOrder α] (dflt : α) (l : List α) (h : l ≠ []) :
    pyMin dflt l ∈ l := by
  cases l with
  | nil => exact absurd rfl h
  | cons a as => exact foldl_min_mem as a

theorem pyMax_mem [LinearOrder α] (dflt : α) (l : List α) (h : l ≠ []) :
    pyMax dflt l ∈ l := by
  cases l with
  | nil => exact absurd rfl h
  | cons a as => exact foldl_max_mem as a

theorem neighborVals_bounded {lo hi : ℤ} {m : HeightMap}
    (h : heightsInBounds lo hi m) (c : Cell) :
    ∀ x ∈ neighborVals m c, lo ≤ x ∧ x ≤ hi := by
  intro x hx
  simp only [neighborVals, List.mem_filterMap] at hx
  obtain ⟨d, _, hd⟩ := hx
  exact h _ x hd

theorem newHeightAt_bounds {lo hi : ℤ} (hle : lo ≤ hi) (current n : ℤ)
    (ns : List ℤ) (hcur : lo ≤ current ∧ current ≤ hi)
    (hnb : ∀ x ∈ n :: ns, lo ≤ x ∧ x ≤ hi) :
    lo ≤ newHeightAt lo current n ns ∧ newHeightAt lo current n ns ≤ hi := by
  have hmin : ns.foldl min n ∈ n :: ns := foldl_min_mem ns n
  have hminb := hnb _ hmin
  refine ⟨le_max_left _ _, ?_⟩
  apply max_le hle
  apply max_le
  · omega
  · exact le_trans (min_le_right _ _) hcur.2

theorem relaxCell_bounds {lo hi : ℤ} (hle : lo ≤ hi) {m : HeightMap}
    (h : heightsInBounds lo hi m) (c : Cell) :
    heightsInBounds lo hi (relaxCell lo m c) := by
  intro p v hpv
  unfold relaxCell at hpv
  rcases hmc : m c with _ | current
  · rw [hmc] at hpv
    exact h p v hpv
  · rw [hmc] at hpv
    rcases hnv : neighborVals m c with _ | ⟨n, ns⟩
    · rw [hnv] at hpv
      exact h p v hpv
    · rw [hnv] at hpv
      simp only at hpv
      by_cases hpc : p = c
      · rw [if_pos hpc] at hpv
        have hv : v = newHeightAt lo current n ns := by
          injection hpv with h2
          omega
        rw [hv]
        apply newHeightAt_bounds hle current n ns (h c current hmc)
        rw [← hnv]
        exact neighborVals_bounded h c
      · rw [if_neg hpc] at hpv
        exact h p v hpv

theorem foldl_relax_bounds {lo hi : ℤ} (hle : lo ≤ hi) :
    ∀ (l : List Cell) (m : HeightMap), heightsInBounds lo hi m →
      heightsInBounds lo hi (l.foldl (relaxCell lo) m) := by
  intro l
  induction l with
  | nil => intro m hm; exact hm
  | cons c cs ih =>
    intro m hm
    exact ih _ (relaxCell_bounds hle hm c)

theorem relaxPass_bounds {lo hi : ℤ} (hle : lo ≤ hi) (r : ℤ) (m : HeightMap)
    (hm : heightsInBounds lo hi m) : heightsInBounds lo hi (relaxPass lo r m) :=
  foldl_relax_bounds hle (squareCells r) m hm

theorem minNoise_le {r : ℤ} {f : Cell → ℚ} {c : Cell} (hc : c ∈ validCells r) :
    minNoise r f ≤ f c :=
  pyMin_le _ _ _ (List.mem_map_of_mem f hc)

theorem le_maxNoise {r : ℤ} {f : Cell → ℚ} {c : Cell} (hc : c ∈ validCells r) :
    f c ≤ maxNoise r f :=
  le_pyMax _ _ _ (List.mem_map_of_mem f hc)

theorem noiseRange_pos {r : ℤ} {f : Cell → ℚ} {c : Cell} (hc : c ∈ validCells r) :
    0 < noiseRange r f := by
  unfold noiseRange
  by_cases hd : maxNoise r f - minNoise r f = 0
  · simp [hd]
  · rw [if_neg hd]
    have h1 := minNoise_le (f := f) hc
    have h2 := le_maxNoise (f := f) hc
    have : minNoise r f ≤ maxNoise r f := le_trans h1 h2
    rcases lt_or_eq_of_le this with h | h
    · linarith
    · exact absurd (by linarith) hd

theorem num_le_noiseRange {r : ℤ} {f : Cell → ℚ} {c : Cell} (hc : c ∈ validCells r) :
    f c - minNoise r f ≤ noiseRange r f := by
  unfold noiseRange
  have h1 := minNoise_le (f := f) hc
  have h2 := le_maxNoise (f := f) hc
  by_cases hd : maxNoise r f - minNoise r f = 0
  · simp only [hd, if_pos]
    linarith
  · rw [if_neg hd]
    linarith

/-- C1, counterexample.  The claim states that each relaxation pass reads a
single consistent snapshot of the height map, so the two-pass smoothing
result equals the snapshot-based reference.  On the radius-1 disk with a
height-9 spike at the centre and a height-0 ring, the in-place smoother of
the code keeps the centre at 9 (the ring cells iterated before the centre
are already raised to 8 when the centre reads them), while the snapshot
reference lowers it to 7: the claim is false. -/
theorem C1_counterexample_spike :
    smoothHeightMap 0 1 spikeMap (0, 0) = some 9 ∧
    snapshotSmooth 0 spikeMap (0, 0) = some 7 ∧
    smoothHeightMap 0 1 spikeMap (0, 0) ≠ snapshotSmooth 0 spikeMap (0, 0) := by
  decide

/-- C1, amended: the two relaxation passes are computed in place over the
shared map — within a pass a cell reads whatever values its neighbours
currently hold, including values already written earlier in the same pass —
and this is observable: there is a height map on which both a single pass
and the full two-pass smoothing differ from the snapshot-based reference
implementation. -/
theorem C1_inplace_pass_differs_from_snapshot :
    ∃ (minH r : ℤ) (m : HeightMap) (c : Cell),
      relaxPass minH r m c ≠ snapshotPass minH m c ∧
      smoothHeightMap minH r m c ≠ snapshotSmooth minH m c :=
  ⟨0, 1, spikeMap, (0, 0), by decide, by decide⟩

/-- C3: for every valid cell (given a sensible height range
`min_height ≤ max_height`), the normalized height equals
`floor(t * (max_height - min_height)) + min_height` with
`t = (combined - min_noise) / noise_range` computed against the observed
extrema, and it lies in `[min_height, max_height]`. -/
theorem C3_normalized_height_floor_and_bounds (r minH maxH : ℤ) (f : Cell → ℚ)
    (c : Cell) (hle : minH ≤ maxH) (hc : c ∈ validCells r) :
    normHeight r f minH maxH c =
      ⌊(f c - minNoise r f) / noiseRange r f * ((maxH : ℚ) - (minH : ℚ))⌋ + minH ∧
    minH ≤ normHeight r f minH maxH c ∧ normHeight r f minH maxH c ≤ maxH := by
  have hrange : 0 < noiseRange r f := noiseRange_pos hc
  have hnum : 0 ≤ f c - minNoise r f := sub_nonneg.mpr (minNoise_le hc)
  have ht0 : 0 ≤ (f c - minNoise r f) / noiseRange r f := div_nonneg hnum hrange.le
  have ht1 : (f c - minNoise r f) / noiseRange r f ≤ 1 :=
    (div_le_one hrange).mpr (num_le_noiseRange hc)
  have hHd : (0 : ℚ) ≤ (maxH : ℚ) - (minH : ℚ) :=
    sub_nonneg.mpr (by exact_mod_cast hle)
  set t := (f c - minNoise r f) / noiseRange r f with hteq
  have harg0 : 0 ≤ t * ((maxH : ℚ) - (minH : ℚ)) := mul_nonneg ht0 hHd
  have harg1 : t * ((maxH : ℚ) - (minH : ℚ)) ≤ (maxH : ℚ) - (minH : ℚ) := by
    calc t * ((maxH : ℚ) - (minH : ℚ)) ≤ 1 * ((maxH : ℚ) - (minH : ℚ)) :=
          mul_le_mul_of_nonneg_right ht1 hHd
    _ = (maxH : ℚ) - (minH : ℚ) := one_mul _
  have hpy : pyint (t * ((maxH : ℚ) - (minH : ℚ))) = ⌊t * ((maxH : ℚ) - (minH : ℚ))⌋ := by
    unfold pyint
    rw [if_neg (not_lt.mpr harg0)]
  have hfl0 : 0 ≤ ⌊t * ((maxH : ℚ) - (minH : ℚ))⌋ :=
    Int.le_floor.mpr (by exact_mod_cast harg0)
  have hfl1 : ⌊t * ((maxH : ℚ) - (minH : ℚ))⌋ ≤ maxH - minH := by
    have h1 : (⌊t * ((maxH : ℚ) - (minH : ℚ))⌋ : ℚ) ≤ (maxH : ℚ) - (minH : ℚ) :=
      le_trans (Int.floor_le _) harg1
    exact_mod_cast h1
  unfold normHeight
  rw [hpy]
  exact ⟨rfl, by omega, by omega⟩

/-- C3, witness: instantiated at the radius-1 disk, the zero noise field,
and height range `[1, 5]` at the centre cell. -/
theorem C3_witness :
    (1 : ℤ) ≤ 5 ∧ ((0, 0) : Cell) ∈ validCells 1 ∧
    (normHeight 1 (fun _ => 0) 1 5 (0, 0) =
      ⌊((fun (_ : Cell) => (0 : ℚ)) (0, 0) - minNoise 1 (fun _ => 0)) /
          noiseRange 1 (fun _ => 0) * ((5 : ℚ) - (1 : ℚ))⌋ + 1 ∧
      1 ≤ normHeight 1 (fun _ => 0) 1 5 (0, 0) ∧
      normHeight 1 (fun _ => 0) 1 5 (0, 0) ≤ 5) :=
  ⟨by decide, by decide,
    C3_normalized_height_floor_and_bounds 1 1 5 (fun _ => 0) (0, 0)
      (by decide) (by decide)⟩

/-- C4: if the observed minimum and maximum of the combined noise coincide,
the guarded range is 1 (so the normalization divides by a nonzero quantity)
and every valid cell is assigned the constant height `min_height`. -/
theorem C4_degenerate_range_constant (r minH maxH : ℤ) (f : Cell → ℚ)
    (hdeg : maxNoise r f = minNoise r f) :
    noiseRange r f = 1 ∧ noiseRange r f ≠ 0 ∧
    ∀ c ∈ validCells r, normHeight r f minH maxH c = minH := by
  have hrange : noiseRange r f = 1 := by
    unfold noiseRange
    rw [hdeg, sub_self]
    simp
  refine ⟨hrange, by rw [hrange]; exact one_ne_zero, ?_⟩
  intro c hc
  have hfc : f c = minNoise r f :=
    le_antisymm (hdeg ▸ le_maxNoise hc) (minNoise_le hc)
  unfold normHeight
  rw [hfc, sub_self, zero_div, zero_mul]
  have : pyint 0 = 0 := by
    unfold pyint
    rw [if_neg (lt_irrefl 0), Int.floor_zero]
  rw [this, zero_add]

/-- C4, witness: the constant-zero noise field on the radius-1 disk has a
degenerate observed range, and every valid cell gets height `min_height = 1`. -/
theorem C4_witness :
    maxNoise 1 (fun _ => 0) = minNoise 1 (fun _ => 0) ∧
    (noiseRange 1 (fun _ => 0) = 1 ∧ noiseRange 1 (fun _ => 0) ≠ 0 ∧
      ∀ c ∈ validCells 1, normHeight 1 (fun _ => 0) 1 5 c = 1) := by
  have hvc : validCells 1 = [(-1, 0), (0, -1), (0, 0), (0, 1), (1, 0)] := by decide
  have hdeg : maxNoise 1 (fun _ => (0 : ℚ)) = minNoise 1 (fun _ => 0) := by
    simp [maxNoise, minNoise, hvc, pyMax, pyMin]
  exact ⟨hdeg, C4_degenerate_range_constant 1 1 5 (fun _ => 0) hdeg⟩

/-- C10: the in-place relaxation can neither push a height below
`min_height` nor above `max_height`: if every stored height lies in
`[min_height, max_height]` before smoothing, the same holds after one pass
and after both passes. -/
theorem C10_smoothing_preserves_bounds (minH maxH r : ℤ) (m : HeightMap)
    (hle : minH ≤ maxH) (hm : heightsInBounds minH maxH m) :
    heightsInBounds minH maxH (relaxPass minH r m) ∧
    heightsInBounds minH maxH (smoothHeightMap minH r m) :=
  ⟨relaxPass_bounds hle r m hm,
    relaxPass_bounds hle r (relaxPass minH r m) (relaxPass_bounds hle r m hm)⟩

/-- C10, witness: the constant height-2 map with range `[1, 3]` on the
radius-1 square. -/
theorem C10_witness :
    (1 : ℤ) ≤ 3 ∧ heightsInBounds 1 3 (fun _ => some 2) ∧
    (heightsInBounds 1 3 (relaxPass 1 1 (fun _ => some 2)) ∧
      heightsInBounds 1 3 (smoothHeightMap 1 1 (fun _ => some 2))) := by
  have hm : heightsInBounds 1 3 (fun _ => some 2) := by
    intro c v hv
    injection hv with h2
    omega
  exact ⟨by decide, hm, C10_smoothing_preserves_bounds 1 3 1 (fun _ => some 2) (by decide) hm⟩

theorem topBlockId_ne_four (patchValue : ℚ) : topBlockId patchValue ≠ 4 := by
  unfold topBlockId
  split <;> omega

theorem length_intRange (a b : ℤ) : (intRange a b).length = (b + 1 - a).toNat := by
  simp [intRange]

/-- Membership in the water infill of a column. -/
theorem mem_waterBlocks {wt th y : ℤ} :
    (y, (4 : ℤ)) ∈ waterBlocks wt th ↔ th < wt ∧ th + 1 ≤ y ∧ y ≤ wt := by
  unfold waterBlocks
  split
  · next hlt =>
    simp only [List.mem_map, mem_intRange, Prod.mk.injEq]
    constructor
    · rintro ⟨y', ⟨ha, hb⟩, hc, _⟩
      omega
    · rintro ⟨_, h2, h3⟩
      exact ⟨y, ⟨h2, h3⟩, rfl, trivial⟩
  · next hge =>
    simp only [List.not_mem_nil, false_iff]
    omega

/-- C5: in a column with smoothed height `h`, water blocks (id 4) appear iff
`h < water_threshold`; they are exactly the water infill, they occupy exactly
the levels `h+1 .. water_threshold`, and there are exactly
`water_threshold − h` of them (and none when `h ≥ water_threshold`). -/
theorem C5_water_blocks (wt th : ℤ) (pv : ℚ) :
    (columnBlocks wt pv th).filter (fun b => decide (b.2 = 4)) = waterBlocks wt th ∧
    (∀ y : ℤ, (y, (4 : ℤ)) ∈ columnBlocks wt pv th ↔ th < wt ∧ th + 1 ≤ y ∧ y ≤ wt) ∧
    (waterBlocks wt th).length = (wt - th).toNat := by
  have hfilter : (columnBlocks wt pv th).filter (fun b => decide (b.2 = 4)) =
      waterBlocks wt th := by
    rw [columnBlocks, List.filter_append, List.filter_append]
    have h1 : ((intRange 0 (th - 1)).map (fun y => (y, (1 : ℤ)))).filter
        (fun b => decide (b.2 = 4)) = [] := by
      rw [List.filter_eq_nil_iff]
      rintro ⟨y, i⟩ hb
      simp only [List.mem_map] at hb
      obtain ⟨y', _, he⟩ := hb
      have : i = 1 := (Prod.mk.injEq _ _ _ _ ▸ he).2.symm
      simp [this]
    have h2 : ([(th, topBlockId pv)]).filter (fun b => decide (b.2 = 4)) = [] := by
      simp [topBlockId_ne_four pv]
    have h3 : (waterBlocks wt th).filter (fun b => decide (b.2 = 4)) =
        waterBlocks wt th := by
      rw [List.filter_eq_self]
      rintro ⟨y, i⟩ hb
      unfold waterBlocks at hb
      split at hb
      · simp only [List.mem_map] at hb
        obtain ⟨y', _, he⟩ := hb
        have : i = 4 := (Prod.mk.injEq _ _ _ _ ▸ he).2.symm
        simp [this]
      · cases hb
    rw [h1, h2, h3, List.nil_append, List.nil_append]
  refine ⟨hfilter, ?_, ?_⟩
  · intro y
    constructor
    · intro h
      have hm : (y, (4 : ℤ)) ∈
          (columnBlocks wt pv th).filter (fun b => decide (b.2 = 4)) :=
        List.mem_filter.mpr ⟨h, by simp⟩
      rw [hfilter] at hm
      exact mem_waterBlocks.mp hm
    · intro hcond
      have hw := mem_waterBlocks.mpr hcond
      unfold columnBlocks
      exact List.mem_append.mpr (Or.inr hw)
  · unfold waterBlocks
    split
    · rw [List.length_map, length_intRange]
      omega
    · simp only [List.length_nil]
      omega

/-- C2, counterexample.  The claim states the wall pass writes exactly at the
*valid* cells (distance ≤ radius) with distance > radius − 2, and in
particular never outside the disk.  But the pass has no `distance ≤ radius`
check: with radius 3, the square corner `(3, 3)` has distance √18 > 3, yet
the wall block band `y = 1..4` is written there (the column's terrain height
defaults to 0 since the corner is not in the height map). -/
theorem C2_counterexample_corner :
    ((3 : ℤ), (1 : ℤ), (3 : ℤ)) ∈ wallWrites 3 baseWallHeight wallDemoMap ∧
    distLE 3 3 3 = false := by
  decide

/-- C2, amended: the boundary-wall pass writes the wall band at *every* cell
of the bounding square (valid or not) whose distance from the origin exceeds
radius − 2, at heights `h+1 .. h+wall_height` above the column's terrain
height `h` (which defaults to 0 outside the height map); cells outside the
disk are not excluded. -/
theorem C2_wall_writes_characterization (r wallH : ℤ) (m : HeightMap)
    (x y z : ℤ) :
    (x, y, z) ∈ wallWrites r wallH m ↔
      ((-r ≤ x ∧ x ≤ r) ∧ (-r ≤ z ∧ z ≤ r)) ∧ distGT x z (r - 2) = true ∧
      (m (x, z)).getD 0 + 1 ≤ y ∧ y ≤ (m (x, z)).getD 0 + wallH := by
  unfold wallWrites
  simp only [List.mem_flatMap]
  constructor
  · rintro ⟨c, hc, hmem⟩
    by_cases hgt : distGT c.1 c.2 (r - 2) = true
    · rw [if_pos hgt] at hmem
      simp only [List.mem_map, Prod.mk.injEq] at hmem
      obtain ⟨y', hy', hx, hy, hz⟩ := hmem
      have hcxz : c = (x, z) := by
        rw [← hx, ← hz]
      subst hcxz
      rw [mem_intRange] at hy'
      exact ⟨mem_squareCells.mp hc, hgt, by omega, by omega⟩
    · rw [if_neg hgt] at hmem
      cases hmem
  · rintro ⟨hsq, hgt, h1, h2⟩
    refine ⟨(x, z), mem_squareCells.mpr hsq, ?_⟩
    rw [if_pos hgt]
    simp only [List.mem_map, Prod.mk.injEq]
    exact ⟨y, mem_intRange.mpr ⟨h1, h2⟩, by simp⟩

/-- C6: the ceiling-panel pass never writes below the skip threshold — every
written voxel has `y ≥ max_height + base_wall_height + skip_rows` (the guard
is per-voxel), and a panel whose dome elevations all lie below the threshold
writes zero blocks. -/
theorem C6_panel_skip_threshold (r maxH : ℤ) (domeElev : Cell → ℤ)
    (center : Cell) (pr : ℤ) :
    (∀ w ∈ panelWrites r maxH domeElev center pr, skipThreshold maxH ≤ w.2.1) ∧
    ((∀ c : Cell, domeElev c < skipThreshold maxH) →
      panelWrites r maxH domeElev center pr = []) := by
  constructor
  · rintro ⟨x, y, z⟩ hw
    simp only [panelWrites, List.mem_flatMap] at hw
    obtain ⟨d, _, hmem⟩ := hw
    split at hmem
    · simp only [List.mem_map, Prod.mk.injEq] at hmem
      obtain ⟨y', hy', _, hy, _⟩ := hmem
      simp only [panelColumnWrites, List.mem_filter, decide_eq_true_eq] at hy'
      simpa [← hy] using hy'.2
    · cases hmem
  · intro hlow
    apply List.flatMap_eq_nil_iff.mpr
    intro d _
    split
    · apply List.map_eq_nil_iff.mpr
      apply List.filter_eq_nil_iff.mpr
      intro y hy
      rw [mem_intRange] at hy
      have := hlow (center.1 + d.1, center.2 + d.2)
      simp only [decide_eq_true_eq]
      omega
    · rfl

/-- C6, witness: a panel of radius 1 whose dome elevation is constant 10,
entirely below the threshold `5 + 4 + 12 = 21`, writes zero blocks; the
per-voxel bound holds vacuously. -/
theorem C6_witness :
    (∀ w ∈ panelWrites 50 5 (fun _ => 10) (0, 0) 1, skipThreshold 5 ≤ w.2.1) ∧
    panelWrites 50 5 (fun _ => 10) (0, 0) 1 = [] :=
  ⟨(C6_panel_skip_threshold 50 5 (fun _ => 10) (0, 0) 1).1,
    (C6_panel_skip_threshold 50 5 (fun _ => 10) (0, 0) 1).2 (fun _ => by decide)⟩

/-- C7: the hemispherical projection never takes the square root of a
negative number.  For the panel centre the sampled distance lies in
`[0.3·radius, 0.9·radius]` (`random.uniform` is inclusive), so the radicand
is nonnegative; for a per-voxel evaluation the code only reaches the
projection when `distance ≤ radius`, and then the radicand is nonnegative. -/
theorem C7_radicands_nonneg :
    (∀ dist r : ℚ, 0 < r → 3 / 10 * r ≤ dist → dist ≤ 9 / 10 * r →
      0 ≤ panelRadicand dist r) ∧
    (∀ x z r : ℤ, distLE x z r = true → 0 ≤ voxelRadicand x z r) := by
  constructor
  · intro dist r hr h1 h2
    unfold panelRadicand
    rw [div_pow, sub_nonneg, div_le_one (by positivity)]
    nlinarith
  · intro x z r hle
    have h : 0 ≤ r ∧ x ^ 2 + z ^ 2 ≤ r ^ 2 := by
      simpa [distLE] using hle
    unfold voxelRadicand
    rcases eq_or_lt_of_le h.1 with h0 | h0
    · have hx : x = 0 := by nlinarith [h.2, sq_nonneg x, sq_nonneg z]
      have hz : z = 0 := by nlinarith [h.2, sq_nonneg x, sq_nonneg z]
      rw [hx, hz, ← h0]
      norm_num
    · rw [sub_nonneg, div_le_one (by positivity)]
      exact_mod_cast h.2

/-- C7, witness: the panel-centre radicand at `dist = 3, r = 10` and the
per-voxel radicand at `(x, z) = (3, 4), r = 5`. -/
theorem C7_witness :
    0 ≤ panelRadicand 3 10 ∧ 0 ≤ voxelRadicand 3 4 5 :=
  ⟨C7_radicands_nonneg.1 3 10 (by norm_num) (by norm_num) (by norm_num),
    C7_radicands_nonneg.2 3 4 5 (by decide)⟩

/-- C8: every emitted entity comes from a valid cell that is land and
strictly interior, and its coordinates are exactly `X = x + 0.5`,
`Z = z + 0.5`, `Y = terrain_height + 1 + scale/2`. -/
theorem C8_scatter_placement (r wt : ℤ) (m : HeightMap) (rFlip : Cell → Bool)
    (rScale : Cell → ℚ) (p : Placement)
    (hp : p ∈ scatterEntities r wt m rFlip rScale) :
    ∃ c th, c ∈ validCells r ∧ m c = some th ∧ wt < th ∧
      distLT c.1 c.2 (r - 5) = true ∧
      p.modelScale = rScale c ∧
      p.px = (c.1 : ℚ) + 1 / 2 ∧ p.pz = (c.2 : ℚ) + 1 / 2 ∧
      p.py = (th : ℚ) + 1 + p.modelScale / 2 := by
  simp only [scatterEntities, List.mem_filterMap] at hp
  obtain ⟨c, hc, hfc⟩ := hp
  rcases hmc : m c with _ | th
  · rw [hmc] at hfc
    simp only [scatterCell] at hfc
    exact Option.noConfusion hfc
  · rw [hmc] at hfc
    simp only [scatterCell] at hfc
    split at hfc
    · next hcond =>
      obtain ⟨h1, h2, _⟩ := hcond
      refine ⟨c, th, hc, hmc, h1, h2, ?_⟩
      injection hfc with hp3
      rw [← hp3]
      refine ⟨rfl, rfl, rfl, ?_⟩
      push_cast
      ring
    · cases hfc

/-- C8, witness: with radius 6, water threshold 2, terrain height 3 at the
origin and scale drawn as exactly 2.0, the emitted placement satisfies the
characterization, and concretely `Y = 3 + 1 + 1 = 5` with `X = Z = 0.5`. -/
theorem C8_witness :
    (∃ c th, c ∈ validCells 6 ∧ scatterDemoMap c = some th ∧ 2 < th ∧
      distLT c.1 c.2 (6 - 5) = true ∧
      demoPlacement.modelScale = (fun (_ : Cell) => (2 : ℚ)) c ∧
      demoPlacement.px = (c.1 : ℚ) + 1 / 2 ∧
      demoPlacement.pz = (c.2 : ℚ) + 1 / 2 ∧
      demoPlacement.py = (th : ℚ) + 1 + demoPlacement.modelScale / 2) ∧
    demoPlacement.py = 5 ∧ demoPlacement.px = 1 / 2 ∧ demoPlacement.pz = 1 / 2 := by
  have hmem : demoPlacement ∈
      scatterEntities 6 2 scatterDemoMap (fun _ => true) (fun _ => 2) :=
    List.mem_filterMap.mpr ⟨((0 : ℤ), (0 : ℤ)), by decide, rfl⟩
  refine ⟨C8_scatter_placement 6 2 scatterDemoMap (fun _ => true) (fun _ => 2)
    demoPlacement hmem, ?_, ?_, ?_⟩
  · show (((3 : ℤ) + 1 : ℤ) : ℚ) + (2 : ℚ) / 2 = 5
    norm_num
  · show ((0 : ℤ) : ℚ) + 1 / 2 = 1 / 2
    norm_num
  · show ((0 : ℤ) : ℚ) + 1 / 2 = 1 / 2
    norm_num

/-- C9: the smoothed height field is a function of the generation parameters
and the deterministic noise fields only — it equals the deterministic
smoothed normalized map, so two runs with identical parameters and noise but
different random draws (panels, Bernoulli trials, scales) produce identical
height maps. -/
theorem C9_heights_independent_of_random_draws (r minH maxH wt dh : ℤ)
    (f patch : Cell → ℚ) (domeElev : Cell → ℤ) (o1 o2 : RandomOracles) :
    (generate r minH maxH wt dh f patch domeElev o1).heights =
      smoothHeightMap minH r (normalizedHeightMap r f minH maxH) ∧
    (generate r minH maxH wt dh f patch domeElev o1).heights =
      (generate r minH maxH wt dh f patch domeElev o2).heights :=
  ⟨rfl, rfl⟩

/-- C2, witness for the amended characterization: instantiated at radius 3,
wall height 4 and the out-of-disk corner `(3, 3)` at `y = 1`. -/
theorem C2_witness :
    (((-3 : ℤ) ≤ 3 ∧ (3 : ℤ) ≤ 3) ∧ ((-3 : ℤ) ≤ 3 ∧ (3 : ℤ) ≤ 3)) ∧
    distGT 3 3 (3 - 2) = true ∧
    (wallDemoMap (3, 3)).getD 0 + 1 ≤ 1 ∧
    (1 : ℤ) ≤ (wallDemoMap (3, 3)).getD 0 + 4 :=
  (C2_wall_writes_characterization 3 4 wallDemoMap 3 1 3).mp (by decide)
